import Mathlib

/-!
Verification of the nanopb reader core of the Firestore C++ SDK
(`Firestore/core/src/firebase/firestore/nanopb/reader.h`).

The header defines `ReadContext` (a sticky-status carrier), the abstract
`Reader` (decode capability delegating status operations to its embedded
context), `StringReader` (buffer-backed decode) and `ByteBufferReader`
(chunked-transport decode).  The inline methods of `ReadContext` and
`Reader` are embedded directly from the header.  `util::Status`,
`StringReader::Read`, `ByteBufferReader`'s constructor/`Read`,
`pb_decode` and `pb_release`/`FreeNanopbMessage` live outside the
provided sources; those are modelled from the specification, as marked
on each definition.
-/

namespace Nanopb

/-- Error codes of `firebase::firestore::Error` as used by this core.
`firestore_errors.h` is not among the provided sources; per the spec the
reader produces exactly one designated error kind, `DataLoss`
("data loss / malformed input"); a handful of other codes exist so that
statements about "no other error kind" are contentful. -/
inductive ErrorCode where
  | ok
  | cancelled
  | unknown
  | invalidArgument
  | dataLoss
  deriving DecidableEq, Repr

/-- `util::Status`: an error code plus a human-readable message.  The spec
data model is `{ok: bool, message: string}` with ok represented by the
`Ok` code. -/
structure Status where
  code : ErrorCode
  message : String
  deriving DecidableEq, Repr

/-- `util::Status::ok()`: true iff the code is the OK code. -/
def Status.ok (s : Status) : Bool :=
  match s.code with
  | ErrorCode.ok => true
  | _ => false

/-- `util::Status::OK()`: the distinguished ok status. -/
def Status.OK : Status := ⟨ErrorCode.ok, ""⟩

/-- Modelled from the spec: `util::Status::Update` (in `util/status.h`,
not among the provided sources).  Per spec §3 and §4.1 the status is
sticky — ok→error is allowed, error→ok is forbidden, and the first
failure wins: an existing error is retained (the spec permits but does
not require augmenting its description, so the model retains it
unchanged). -/
def Status.Update (s new_status : Status) : Status :=
  if s.ok then new_status else s

/-- `ReadContext` (reader.h lines 37-65): owns exactly one `Status`,
created in the ok state (`status_ = util::Status::OK()`). -/
structure ReadContext where
  status_ : Status := Status.OK
  deriving DecidableEq, Repr

/-- `ReadContext::ok()` (reader.h line 39): `status_.ok()`. -/
def ReadContext.ok (c : ReadContext) : Bool :=
  c.status_.ok

/-- `ReadContext::status()` (reader.h line 43): read-only view. -/
def ReadContext.status (c : ReadContext) : Status :=
  c.status_

/-- `ReadContext::set_status` (reader.h line 47):
`status_ = std::move(status)` — an unconditional replacement. -/
def ReadContext.set_status (c : ReadContext) (status : Status) : ReadContext :=
  { c with status_ := status }

/-- `ReadContext::Fail` (reader.h line 59):
`status_.Update(util::Status(Error::DataLoss, description))`. -/
def ReadContext.Fail (c : ReadContext) (description : String) : ReadContext :=
  { c with status_ := c.status_.Update ⟨ErrorCode.dataLoss, description⟩ }

/-- The state shared by all `Reader` subclasses (reader.h lines 71-127):
the embedded `ReadContext`. -/
structure Reader where
  context_ : ReadContext := {}
  deriving DecidableEq, Repr

/-- `Reader::ok()` (reader.h line 93): delegates to the context. -/
def Reader.ok (r : Reader) : Bool :=
  r.context_.ok

/-- `Reader::status()` (reader.h line 97): delegates to the context. -/
def Reader.status (r : Reader) : Status :=
  r.context_.status

/-- `Reader::set_status` (reader.h line 101): delegates to the context. -/
def Reader.set_status (r : Reader) (status : Status) : Reader :=
  { r with context_ := r.context_.set_status status }

/-- `Reader::context()` (reader.h line 105): access to the embedded
context. -/
def Reader.context (r : Reader) : ReadContext :=
  r.context_

/-- `Reader::Fail` (reader.h line 121): delegates to the context. -/
def Reader.Fail (r : Reader) (description : String) : Reader :=
  { r with context_ := r.context_.Fail description }

/-!
## Wire format

Modelled from the spec: nanopb's `pb_decode` and the message encoding it
consumes are not among the provided sources.  The model follows spec
§4.3 and the glossary: a message is a sequence of tagged fields; each
field is encoded as a varint tag `fieldNumber * 8 + wireType` followed
by a payload according to the wire type (0 = varint, 1 = fixed64,
5 = fixed32, 2 = length-delimited).  Bytes are `Nat` values `< 256`.
-/

/-- The value of one decoded field.  Length-delimited payloads cover
strings, bytes and nested submessages — the dynamically-allocated
sub-fields of a destination record. -/
inductive FieldValue where
  | varint (n : Nat)
  | fixed64 (n : Nat)
  | fixed32 (n : Nat)
  | lengthDelimited (payload : List Nat)
  deriving DecidableEq, Repr

/-- One field of a message: its field number and value. -/
abbrev Field : Type := Nat × FieldValue

/-- A destination record, schema-shaped: the sequence of decoded fields. -/
abbrev Message : Type := List Field

/-- Little-endian byte encoding of `n` in exactly `k` bytes. -/
def leBytes : Nat → Nat → List Nat
  | 0, _ => []
  | k + 1, n => n % 256 :: leBytes k (n / 256)

/-- Little-endian value of a byte list. -/
def leVal : List Nat → Nat
  | [] => 0
  | b :: rest => b + 256 * leVal rest

/-- Base-128 varint encoding, fuelled to stay structurally recursive
(`n` itself is always enough fuel since the argument shrinks by `/128`). -/
def encodeVarintFuel : Nat → Nat → List Nat
  | 0, n => [n % 128]
  | fuel + 1, n => if n < 128 then [n] else (n % 128 + 128) :: encodeVarintFuel fuel (n / 128)

/-- Base-128 varint encoding: 7 value bits per byte, high bit set on
every byte but the last. -/
def encodeVarint (n : Nat) : List Nat :=
  encodeVarintFuel n n

/-- Base-128 varint decoding; consumes bytes until one with the high bit
clear, failing on end of stream (a truncated varint). -/
def decodeVarint : List Nat → Except String (Nat × List Nat)
  | [] => Except.error "end-of-stream"
  | b :: rest =>
    if b < 128 then Except.ok (b, rest)
    else
      match decodeVarint rest with
      | Except.ok (n, rest') => Except.ok (b - 128 + 128 * n, rest')
      | Except.error e => Except.error e

/-- Reads exactly `n` bytes from the stream, failing on underrun. -/
def readBytes (n : Nat) (bs : List Nat) : Except String (List Nat × List Nat) :=
  if n ≤ bs.length then Except.ok (bs.take n, bs.drop n) else Except.error "end-of-stream"

/-- Encoding of one field: varint tag, then the wire-type payload. -/
def encodeField : Field → List Nat
  | (num, FieldValue.varint v) => encodeVarint (num * 8 + 0) ++ encodeVarint v
  | (num, FieldValue.fixed64 v) => encodeVarint (num * 8 + 1) ++ leBytes 8 v
  | (num, FieldValue.fixed32 v) => encodeVarint (num * 8 + 5) ++ leBytes 4 v
  | (num, FieldValue.lengthDelimited bs) =>
      encodeVarint (num * 8 + 2) ++ encodeVarint bs.length ++ bs

/-- Encoding of a message: the concatenated encodings of its fields. -/
def encodeMsg (m : Message) : List Nat :=
  match m with
  | [] => []
  | f :: rest => encodeField f ++ encodeMsg rest

/-- Decoding of one field: reads the tag varint, rejects tag 0, and
dispatches on the wire type. -/
def decodeField (bs : List Nat) : Except String (Field × List Nat) :=
  match decodeVarint bs with
  | Except.error e => Except.error e
  | Except.ok (tag, r1) =>
    if tag / 8 = 0 then Except.error "zero tag"
    else
      match tag % 8 with
      | 0 =>
        match decodeVarint r1 with
        | Except.error e => Except.error e
        | Except.ok (v, r2) => Except.ok ((tag / 8, FieldValue.varint v), r2)
      | 1 =>
        match readBytes 8 r1 with
        | Except.error e => Except.error e
        | Except.ok (chunk, r2) => Except.ok ((tag / 8, FieldValue.fixed64 (leVal chunk)), r2)
      | 5 =>
        match readBytes 4 r1 with
        | Except.error e => Except.error e
        | Except.ok (chunk, r2) => Except.ok ((tag / 8, FieldValue.fixed32 (leVal chunk)), r2)
      | 2 =>
        match decodeVarint r1 with
        | Except.error e => Except.error e
        | Except.ok (len, r2) =>
          match readBytes len r2 with
          | Except.error e => Except.error e
          | Except.ok (payload, r3) =>
            Except.ok ((tag / 8, FieldValue.lengthDelimited payload), r3)
      | _ => Except.error "invalid wire type"

/-- Message decoding loop, fuelled (the input length is always enough
fuel since every field consumes at least the tag byte): reads fields
until the stream is exhausted. -/
def decodeMsgFuel : Nat → List Nat → Except String Message
  | _, [] => Except.ok []
  | 0, _ :: _ => Except.error "end-of-stream"
  | fuel + 1, b :: rest0 =>
    match decodeField (b :: rest0) with
    | Except.error e => Except.error e
    | Except.ok (f, rest) =>
      match decodeMsgFuel fuel rest with
      | Except.ok m => Except.ok (f :: m)
      | Except.error e => Except.error e

/-- Full-message decode: the wire walk of spec §4.3. -/
def decodeMsg (bs : List Nat) : Except String Message :=
  decodeMsgFuel bs.length bs

/-- A wire-valid field: field numbers start at 1, fixed-width values fit
their width, and length-delimited payloads are bytes. -/
def validField : Field → Prop
  | (num, FieldValue.varint _) => 1 ≤ num
  | (num, FieldValue.fixed64 v) => 1 ≤ num ∧ v < 2 ^ 64
  | (num, FieldValue.fixed32 v) => 1 ≤ num ∧ v < 2 ^ 32
  | (num, FieldValue.lengthDelimited bs) => 1 ≤ num ∧ ∀ b ∈ bs, b < 256

instance : DecidablePred validField := by
  intro f
  rcases f with ⟨num, v⟩
  cases v <;> simp [validField] <;> infer_instance

/-- A wire-valid message: every field is valid. -/
def validMsg (m : Message) : Prop := ∀ f ∈ m, validField f

instance : DecidablePred validMsg := fun m =>
  inferInstanceAs (Decidable (∀ f ∈ m, validField f))

/-!
## Concrete readers

`StringReader` and `ByteBufferReader` (reader.h lines 129-183).  Their
`Read` bodies and the `ByteBufferReader` constructor live in
`reader.cc`, which is not among the provided sources; they are modelled
from the spec as marked.  A `pb_istream_t` is modelled by its remaining
bytes.
-/

/-- `StringReader` (reader.h lines 129-172): the inherited context plus
a `pb_istream_t` over the input bytes.  The default constructor
(reader.h line 136) is not associated with any bytes. -/
structure StringReader extends Reader where
  stream_ : List Nat := []
  deriving DecidableEq, Repr

/-- The byte-source constructors of `StringReader` (reader.h lines
147-159): an input stream over the given bytes, context initially ok. -/
def StringReader.fromBytes (bytes : List Nat) : StringReader :=
  { stream_ := bytes }

/-- Modelled from the spec: `StringReader::Read` (declared reader.h line
161, body in reader.cc, not among the provided sources).  Per spec §4.2
a `Read` on a reader already in an error state is a no-op (fail fast,
never decoding against an untrusted stream position); otherwise it runs
the §4.3 wire walk over the stream, writing the decoded message to the
destination on success and calling `Fail` with the decode error's
description on failure.  The returned `Option Message` is the
destination record: `some` when fully written, `none` when not (a failed
decode may leave it partially populated). -/
def StringReader.Read (r : StringReader) : StringReader × Option Message :=
  if r.context_.ok then
    match decodeMsg r.stream_ with
    | Except.ok m => ({ r with stream_ := [] }, some m)
    | Except.error e => ({ r with context_ := r.context_.Fail e }, none)
  else (r, none)

/-- `ByteBufferReader` (reader.h lines 174-183): the inherited context,
the owned contiguous copy `bytes_`, and a `pb_istream_t` over it. -/
structure ByteBufferReader extends Reader where
  bytes_ : List Nat
  stream_ : List Nat
  deriving DecidableEq, Repr

/-- Modelled from the spec: the `ByteBufferReader` constructor (reader.h
line 176, body in reader.cc, not among the provided sources).  Per spec
§4.4 construction eagerly copies all segments of the chunked transport
buffer into one owned contiguous byte region and opens the stream over
it. -/
def ByteBufferReader.fromSegments (buffer : List (List Nat)) : ByteBufferReader :=
  { bytes_ := buffer.flatten, stream_ := buffer.flatten }

/-- Modelled from the spec: `ByteBufferReader::Read` (declared reader.h
line 178, body in reader.cc, not among the provided sources).  Per spec
§4.4 it behaves identically to the buffer-backed reader's `Read` over
the copied bytes. -/
def ByteBufferReader.Read (r : ByteBufferReader) : ByteBufferReader × Option Message :=
  if r.context_.ok then
    match decodeMsg r.stream_ with
    | Except.ok m => ({ r with stream_ := [] }, some m)
    | Except.error e => ({ r with context_ := r.context_.Fail e }, none)
  else (r, none)

/-!
## Message release

Modelled from the spec: `nanopb::FreeNanopbMessage` / `pb_release` are
not among the provided sources.  Per spec §4.5 release walks the
destination record and frees every dynamically allocated sub-field
(strings/bytes, nested submessages, repeated-field arrays), leaving each
freed pointer in the "nothing to free" state, so that releasing again is
safe. -/

/-- One slot of a destination record as seen by the release walk: a
plain scalar, or a dynamically-allocated pointer field (`none` means
null / nothing to free — the zero-initialized state). -/
inductive PbSlot where
  | scalar (value : Nat)
  | bytesField (alloc : Option (List Nat))
  | submessage (alloc : Option (List (Nat × PbSlot)))
  | repeatedField (items : List PbSlot)

/-- Modelled from the spec: release of one slot — dynamic storage is
freed and the slot left null/empty; scalars are untouched. -/
def releaseSlot : PbSlot → PbSlot
  | PbSlot.scalar v => PbSlot.scalar v
  | PbSlot.bytesField _ => PbSlot.bytesField none
  | PbSlot.submessage _ => PbSlot.submessage none
  | PbSlot.repeatedField _ => PbSlot.repeatedField []

/-- Modelled from the spec: `FreeNanopbMessage` (wrapping `pb_release`)
walks every field slot of the destination record and frees it. -/
def FreeNanopbMessage (dest : List (Nat × PbSlot)) : List (Nat × PbSlot) :=
  dest.map fun fs => (fs.1, releaseSlot fs.2)

/-! ## Varint lemmas -/

theorem encodeVarintFuel_eq_encodeVarint :
    ∀ fuel n : Nat, n ≤ fuel → encodeVarintFuel fuel n = encodeVarint n := by
  intro fuel
  induction fuel using Nat.strong_induction_on with
  | _ fuel ih =>
    intro n hn
    match fuel, n with
    | 0, n =>
      interval_cases n
      rfl
    | fuel + 1, n =>
      by_cases h : n < 128
      · have hr : encodeVarintFuel (fuel + 1) n = [n] := by
          simp [encodeVarintFuel, h]
        rw [hr]
        match n, h with
        | 0, _ => rfl
        | m + 1, h => simp [encodeVarint, encodeVarintFuel, h]
      · have hpos : 0 < n := by omega
        obtain ⟨m, rfl⟩ : ∃ m, n = m + 1 := ⟨n - 1, by omega⟩
        have hdiv : (m + 1) / 128 ≤ fuel := by
          have := Nat.div_lt_self hpos (by omega : 1 < 128)
          omega
        have hdiv' : (m + 1) / 128 ≤ m := by
          have := Nat.div_lt_self hpos (by omega : 1 < 128)
          omega
        have h1 : encodeVarintFuel fuel ((m + 1) / 128) = encodeVarint ((m + 1) / 128) :=
          ih fuel (by omega) _ hdiv
        have h2 : encodeVarintFuel m ((m + 1) / 128) = encodeVarint ((m + 1) / 128) :=
          ih m (by omega) _ hdiv'
        show encodeVarintFuel (fuel + 1) (m + 1) = encodeVarintFuel (m + 1) (m + 1)
        simp only [encodeVarintFuel, if_neg h]
        rw [h1, h2]

/-- Unfolding equation for `encodeVarint`. -/
theorem encodeVarint_eq (n : Nat) :
    encodeVarint n = if n < 128 then [n] else (n % 128 + 128) :: encodeVarint (n / 128) := by
  by_cases h : n < 128
  · rw [if_pos h]
    match n, h with
    | 0, _ => rfl
    | m + 1, h => simp [encodeVarint, encodeVarintFuel, h]
  · rw [if_neg h]
    obtain ⟨m, rfl⟩ : ∃ m, n = m + 1 := ⟨n - 1, by omega⟩
    show encodeVarintFuel (m + 1) (m + 1) = _
    have hdiv : (m + 1) / 128 ≤ m := by
      have := Nat.div_lt_self (by omega : 0 < m + 1) (by omega : 1 < 128)
      omega
    simp [encodeVarintFuel, h, encodeVarintFuel_eq_encodeVarint m _ hdiv]

theorem encodeVarint_ne_nil (n : Nat) : encodeVarint n ≠ [] := by
  rw [encodeVarint_eq]
  by_cases h : n < 128 <;> simp [h]

/-- Varint roundtrip: decoding an encoded varint yields the value and
leaves the rest of the stream untouched. -/
theorem decodeVarint_encodeVarint (n : Nat) :
    ∀ rest : List Nat, decodeVarint (encodeVarint n ++ rest) = Except.ok (n, rest) := by
  induction n using Nat.strong_induction_on with
  | _ n ih =>
    intro rest
    rw [encodeVarint_eq]
    by_cases h : n < 128
    · simp [h, decodeVarint]
    · have hlt : n / 128 < n := Nat.div_lt_self (by omega) (by omega)
      simp only [if_neg h, List.cons_append, decodeVarint]
      rw [if_neg (by omega), ih (n / 128) hlt rest]
      simp
      omega

/-- Decoding any strict prefix of an encoded varint fails with
end-of-stream: every byte before the last carries the continuation
bit. -/
theorem decodeVarint_take (n : Nat) :
    ∀ k, k < (encodeVarint n).length →
      decodeVarint ((encodeVarint n).take k) = Except.error "end-of-stream" := by
  induction n using Nat.strong_induction_on with
  | _ n ih =>
    intro k hk
    rw [encodeVarint_eq] at hk ⊢
    by_cases h : n < 128
    · simp only [if_pos h, List.length_cons, List.length_nil] at hk
      interval_cases k
      rfl
    · have hlt : n / 128 < n := Nat.div_lt_self (by omega) (by omega)
      simp only [if_neg h, List.length_cons] at hk
      match k with
      | 0 => rfl
      | k + 1 =>
        simp only [if_neg h, List.take_succ_cons, decodeVarint]
        rw [if_neg (by omega), ih (n / 128) hlt k (by omega)]

theorem decodeVarint_length :
    ∀ bs n rest, decodeVarint bs = Except.ok (n, rest) → rest.length < bs.length := by
  intro bs
  induction bs with
  | nil => intro n rest h; simp [decodeVarint] at h
  | cons b tail ih =>
    intro n rest h
    simp only [decodeVarint] at h
    by_cases hb : b < 128
    · rw [if_pos hb] at h
      simp only [Except.ok.injEq, Prod.mk.injEq] at h
      obtain ⟨-, rfl⟩ := h
      simp
    · rw [if_neg hb] at h
      match hrec : decodeVarint tail with
      | Except.ok (n', rest') =>
        rw [hrec] at h
        simp only [Except.ok.injEq, Prod.mk.injEq] at h
        obtain ⟨-, rfl⟩ := h
        have := ih n' rest' hrec
        simp only [List.length_cons]
        omega
      | Except.error e =>
        rw [hrec] at h
        exact absurd h (by simp)

/-! ## Fixed-width and stream-read lemmas -/

theorem leBytes_length (k : Nat) : ∀ n, (leBytes k n).length = k := by
  induction k with
  | zero => intro n; rfl
  | succ k ih => intro n; simp [leBytes, ih]

theorem leVal_leBytes (k : Nat) : ∀ n, n < 256 ^ k → leVal (leBytes k n) = n := by
  induction k with
  | zero =>
    intro n hn
    interval_cases n
    rfl
  | succ k ih =>
    intro n hn
    have hdiv : n / 256 < 256 ^ k := by
      rw [Nat.div_lt_iff_lt_mul (by omega : 0 < 256)]
      calc n < 256 ^ (k + 1) := hn
        _ = 256 ^ k * 256 := by ring
    simp only [leBytes, leVal, ih (n / 256) hdiv]
    omega

theorem readBytes_append (pre rest : List Nat) :
    readBytes pre.length (pre ++ rest) = Except.ok (pre, rest) := by
  simp [readBytes]

theorem readBytes_short (n : Nat) (bs : List Nat) (h : bs.length < n) :
    readBytes n bs = Except.error "end-of-stream" := by
  simp only [readBytes, if_neg (by omega : ¬n ≤ bs.length)]

theorem readBytes_length (n : Nat) (bs c rest : List Nat)
    (h : readBytes n bs = Except.ok (c, rest)) : rest.length ≤ bs.length := by
  simp only [readBytes] at h
  by_cases hl : n ≤ bs.length
  · rw [if_pos hl] at h
    simp only [Except.ok.injEq, Prod.mk.injEq] at h
    obtain ⟨-, rfl⟩ := h
    simp
  · rw [if_neg hl] at h
    exact absurd h (by simp)

/-! ## Field roundtrip -/

/-- Decoding an encoded wire-valid field consumes exactly its encoding
and returns the field. -/
theorem decodeField_encodeField (f : Field) (hf : validField f) (rest : List Nat) :
    decodeField (encodeField f ++ rest) = Except.ok (f, rest) := by
  obtain ⟨num, v⟩ := f
  cases v with
  | varint n =>
    have hnum : 1 ≤ num := hf
    simp only [encodeField, List.append_assoc, decodeField, decodeVarint_encodeVarint]
    have h8 : (num * 8 + 0) / 8 = num := by omega
    have h8m : (num * 8 + 0) % 8 = 0 := by omega
    rw [h8, h8m, if_neg (by omega : ¬num = 0)]
  | fixed64 n =>
    obtain ⟨hnum, hn⟩ := hf
    simp only [encodeField, List.append_assoc, decodeField, decodeVarint_encodeVarint]
    have h8 : (num * 8 + 1) / 8 = num := by omega
    have h8m : (num * 8 + 1) % 8 = 1 := by omega
    have hr := readBytes_append (leBytes 8 n) rest
    rw [leBytes_length] at hr
    have hv : leVal (leBytes 8 n) = n :=
      leVal_leBytes 8 n (by rw [show (256 : Nat) ^ 8 = 2 ^ 64 by norm_num]; exact hn)
    rw [h8, h8m, if_neg (by omega : ¬num = 0)]
    simp [hr, hv]
  | fixed32 n =>
    obtain ⟨hnum, hn⟩ := hf
    simp only [encodeField, List.append_assoc, decodeField, decodeVarint_encodeVarint]
    have h8 : (num * 8 + 5) / 8 = num := by omega
    have h8m : (num * 8 + 5) % 8 = 5 := by omega
    have hr := readBytes_append (leBytes 4 n) rest
    rw [leBytes_length] at hr
    have hv : leVal (leBytes 4 n) = n :=
      leVal_leBytes 4 n (by rw [show (256 : Nat) ^ 4 = 2 ^ 32 by norm_num]; exact hn)
    rw [h8, h8m, if_neg (by omega : ¬num = 0)]
    simp [hr, hv]
  | lengthDelimited bs =>
    obtain ⟨hnum, -⟩ := hf
    simp only [encodeField, List.append_assoc, decodeField, decodeVarint_encodeVarint]
    have h8 : (num * 8 + 2) / 8 = num := by omega
    have h8m : (num * 8 + 2) % 8 = 2 := by omega
    rw [h8, h8m, if_neg (by omega : ¬num = 0)]
    simp only [decodeVarint_encodeVarint, readBytes_append]

/-- A successful single-field decode strictly consumes input. -/
theorem decodeField_length (bs : List Nat) (f : Field) (rest : List Nat)
    (h : decodeField bs = Except.ok (f, rest)) : rest.length < bs.length := by
  simp only [decodeField] at h
  match h1 : decodeVarint bs with
  | Except.error e => simp only [h1] at h; exact absurd h (by simp)
  | Except.ok (tag, r1) =>
    simp only [h1] at h
    have hr1 : r1.length < bs.length := decodeVarint_length bs tag r1 h1
    by_cases hz : tag / 8 = 0
    · rw [if_pos hz] at h; exact absurd h (by simp)
    rw [if_neg hz] at h
    match h2 : tag % 8, h with
    | 0, h =>
      match h3 : decodeVarint r1 with
      | Except.error e => simp only [h3] at h; exact absurd h (by simp)
      | Except.ok (v, r2) =>
        simp only [h3, Except.ok.injEq, Prod.mk.injEq] at h
        obtain ⟨-, rfl⟩ := h
        have := decodeVarint_length r1 v r2 h3
        omega
    | 1, h =>
      match h3 : readBytes 8 r1 with
      | Except.error e => simp only [h3] at h; exact absurd h (by simp)
      | Except.ok (chunk, r2) =>
        simp only [h3, Except.ok.injEq, Prod.mk.injEq] at h
        obtain ⟨-, rfl⟩ := h
        have := readBytes_length 8 r1 chunk r2 h3
        omega
    | 2, h =>
      match h3 : decodeVarint r1 with
      | Except.error e => simp only [h3] at h; exact absurd h (by simp)
      | Except.ok (len, r2) =>
        simp only [h3] at h
        match h4 : readBytes len r2 with
        | Except.error e => simp only [h4] at h; exact absurd h (by simp)
        | Except.ok (payload, r3) =>
          simp only [h4, Except.ok.injEq, Prod.mk.injEq] at h
          obtain ⟨-, rfl⟩ := h
          have hv := decodeVarint_length r1 len r2 h3
          have hb := readBytes_length len r2 payload r3 h4
          omega
    | 3, h => exact absurd h (by simp)
    | 4, h => exact absurd h (by simp)
    | 5, h =>
      match h3 : readBytes 4 r1 with
      | Except.error e => simp only [h3] at h; exact absurd h (by simp)
      | Except.ok (chunk, r2) =>
        simp only [h3, Except.ok.injEq, Prod.mk.injEq] at h
        obtain ⟨-, rfl⟩ := h
        have := readBytes_length 4 r1 chunk r2 h3
        omega
    | w + 6, h => exact absurd h (by simp)

/-! ## Message decode: unfolding and roundtrip -/

theorem decodeMsgFuel_congr :
    ∀ fuel1 fuel2 bs, bs.length ≤ fuel1 → bs.length ≤ fuel2 →
      decodeMsgFuel fuel1 bs = decodeMsgFuel fuel2 bs := by
  intro fuel1
  induction fuel1 using Nat.strong_induction_on with
  | _ fuel1 ih =>
    intro fuel2 bs h1 h2
    match bs with
    | [] =>
      match fuel1, fuel2 with
      | 0, 0 => rfl
      | 0, _ + 1 => rfl
      | _ + 1, 0 => rfl
      | _ + 1, _ + 1 => rfl
    | b :: rest0 =>
      simp only [List.length_cons] at h1 h2
      match fuel1, fuel2 with
      | g1 + 1, g2 + 1 =>
        show (match decodeField (b :: rest0) with
          | Except.error e => Except.error e
          | Except.ok (f, rest) =>
            match decodeMsgFuel g1 rest with
            | Except.ok m => Except.ok (f :: m)
            | Except.error e => Except.error e) =
          (match decodeField (b :: rest0) with
          | Except.error e => Except.error e
          | Except.ok (f, rest) =>
            match decodeMsgFuel g2 rest with
            | Except.ok m => Except.ok (f :: m)
            | Except.error e => Except.error e)
        match hfld : decodeField (b :: rest0) with
        | Except.error e => rfl
        | Except.ok (f, rest) =>
          have hlen := decodeField_length (b :: rest0) f rest hfld
          simp only [List.length_cons] at hlen
          show (match decodeMsgFuel g1 rest with
            | Except.ok m => Except.ok (f :: m)
            | Except.error e => Except.error e) =
            (match decodeMsgFuel g2 rest with
            | Except.ok m => Except.ok (f :: m)
            | Except.error e => Except.error e)
          rw [ih g1 (by omega) g2 rest (by omega) (by omega)]

/-- Unfolding equation for `decodeMsg` on a nonempty stream. -/
theorem decodeMsg_cons (b : Nat) (rest0 : List Nat) :
    decodeMsg (b :: rest0) =
      match decodeField (b :: rest0) with
      | Except.error e => Except.error e
      | Except.ok (f, rest) =>
        match decodeMsg rest with
        | Except.ok m => Except.ok (f :: m)
        | Except.error e => Except.error e := by
  show decodeMsgFuel (rest0.length + 1) (b :: rest0) = _
  show (match decodeField (b :: rest0) with
    | Except.error e => Except.error e
    | Except.ok (f, rest) =>
      match decodeMsgFuel rest0.length rest with
      | Except.ok m => Except.ok (f :: m)
      | Except.error e => Except.error e) = _
  match hfld : decodeField (b :: rest0) with
  | Except.error e => rfl
  | Except.ok (f, rest) =>
    have hlen := decodeField_length (b :: rest0) f rest hfld
    simp only [List.length_cons] at hlen
    show (match decodeMsgFuel rest0.length rest with
      | Except.ok m => Except.ok (f :: m)
      | Except.error e => Except.error e) =
      (match decodeMsg rest with
      | Except.ok m => Except.ok (f :: m)
      | Except.error e => Except.error e)
    rw [show decodeMsgFuel rest0.length rest = decodeMsg rest from
      decodeMsgFuel_congr rest0.length rest.length rest (by omega) (by omega)]

theorem encodeField_ne_nil (f : Field) : encodeField f ≠ [] := by
  obtain ⟨num, v⟩ := f
  cases v <;> simp [encodeField, encodeVarint_ne_nil]

/-- Decode/encode roundtrip for whole messages: decoding the encoding of
a wire-valid message recovers the message exactly. -/
theorem decodeMsg_encodeMsg (m : Message) (hm : validMsg m) :
    decodeMsg (encodeMsg m) = Except.ok m := by
  induction m with
  | nil => rfl
  | cons f t ih =>
    have hf : validField f := hm f (by simp)
    have ht : validMsg t := fun g hg => hm g (by simp [hg])
    show decodeMsg (encodeField f ++ encodeMsg t) = Except.ok (f :: t)
    obtain ⟨b, rest0, hcons⟩ : ∃ b rest0, encodeField f ++ encodeMsg t = b :: rest0 := by
      match hne : encodeField f with
      | [] => exact absurd hne (encodeField_ne_nil f)
      | b :: tl => exact ⟨b, tl ++ encodeMsg t, by simp⟩
    rw [hcons, decodeMsg_cons, ← hcons, decodeField_encodeField f hf]
    show (match decodeMsg (encodeMsg t) with
      | Except.ok m => Except.ok (f :: m)
      | Except.error e => Except.error e) = Except.ok (f :: t)
    rw [ih ht]

/-! ## Truncation lemmas -/

theorem take_append_of_le {α : Type} (xs ys : List α) (k : Nat) (h : k ≤ xs.length) :
    (xs ++ ys).take k = xs.take k := by
  rw [List.take_append_eq_append_take]
  have : k - xs.length = 0 := by omega
  simp [this]

theorem take_append_of_ge {α : Type} (xs ys : List α) (k : Nat) (h : xs.length ≤ k) :
    (xs ++ ys).take k = xs ++ ys.take (k - xs.length) := by
  rw [List.take_append_eq_append_take, List.take_of_length_le h]

theorem encodeVarint_length_pos (n : Nat) : 0 < (encodeVarint n).length :=
  List.length_pos.mpr (encodeVarint_ne_nil n)

/-- Decoding any nonempty strict prefix of one encoded wire-valid field
fails with end-of-stream. -/
theorem decodeField_take (f : Field) (hf : validField f) (k : Nat)
    (hk : k < (encodeField f).length) :
    decodeField ((encodeField f).take k) = Except.error "end-of-stream" := by
  obtain ⟨num, v⟩ := f
  cases v with
  | varint n =>
    have hnum : 1 ≤ num := hf
    have hne : ¬num = 0 := by omega
    have h8 : (num * 8 + 0) / 8 = num := by omega
    have h8m : (num * 8 + 0) % 8 = 0 := by omega
    simp only [encodeField, List.length_append] at hk
    simp only [encodeField]
    by_cases hkT : k < (encodeVarint (num * 8 + 0)).length
    · rw [take_append_of_le _ _ _ (by omega)]
      simp only [decodeField, decodeVarint_take (num * 8 + 0) k hkT]
    · push_neg at hkT
      rw [take_append_of_ge _ _ _ hkT]
      simp only [decodeField, decodeVarint_encodeVarint, h8, h8m, hne, if_false,
        decodeVarint_take n (k - (encodeVarint (num * 8 + 0)).length) (by omega)]
  | fixed64 n =>
    obtain ⟨hnum, -⟩ := hf
    have hne : ¬num = 0 := by omega
    have h8 : (num * 8 + 1) / 8 = num := by omega
    have h8m : (num * 8 + 1) % 8 = 1 := by omega
    simp only [encodeField, List.length_append, leBytes_length] at hk
    simp only [encodeField]
    by_cases hkT : k < (encodeVarint (num * 8 + 1)).length
    · rw [take_append_of_le _ _ _ (by omega)]
      simp only [decodeField, decodeVarint_take (num * 8 + 1) k hkT]
    · push_neg at hkT
      rw [take_append_of_ge _ _ _ hkT]
      have hshort : ((leBytes 8 n).take (k - (encodeVarint (num * 8 + 1)).length)).length < 8 := by
        rw [List.length_take, leBytes_length]
        omega
      simp only [decodeField, decodeVarint_encodeVarint, h8, h8m, hne, if_false,
        readBytes_short 8 _ hshort]
  | fixed32 n =>
    obtain ⟨hnum, -⟩ := hf
    have hne : ¬num = 0 := by omega
    have h8 : (num * 8 + 5) / 8 = num := by omega
    have h8m : (num * 8 + 5) % 8 = 5 := by omega
    simp only [encodeField, List.length_append, leBytes_length] at hk
    simp only [encodeField]
    by_cases hkT : k < (encodeVarint (num * 8 + 5)).length
    · rw [take_append_of_le _ _ _ (by omega)]
      simp only [decodeField, decodeVarint_take (num * 8 + 5) k hkT]
    · push_neg at hkT
      rw [take_append_of_ge _ _ _ hkT]
      have hshort : ((leBytes 4 n).take (k - (encodeVarint (num * 8 + 5)).length)).length < 4 := by
        rw [List.length_take, leBytes_length]
        omega
      simp only [decodeField, decodeVarint_encodeVarint, h8, h8m, hne, if_false,
        readBytes_short 4 _ hshort]
  | lengthDelimited bs =>
    obtain ⟨hnum, -⟩ := hf
    have hne : ¬num = 0 := by omega
    have h8 : (num * 8 + 2) / 8 = num := by omega
    have h8m : (num * 8 + 2) % 8 = 2 := by omega
    simp only [encodeField, List.append_assoc, List.length_append] at hk
    simp only [encodeField, List.append_assoc]
    by_cases hkT : k < (encodeVarint (num * 8 + 2)).length
    · rw [take_append_of_le _ _ _ (by omega)]
      simp only [decodeField, decodeVarint_take (num * 8 + 2) k hkT]
    · push_neg at hkT
      rw [take_append_of_ge _ _ _ hkT]
      set k1 := k - (encodeVarint (num * 8 + 2)).length with hk1
      have hk1lt : k1 < (encodeVarint bs.length).length + bs.length := by omega
      by_cases hkL : k1 < (encodeVarint bs.length).length
      · rw [take_append_of_le _ _ _ (by omega)]
        simp only [decodeField, decodeVarint_encodeVarint, h8, h8m, hne, if_false,
          decodeVarint_take bs.length k1 hkL]
      · push_neg at hkL
        rw [take_append_of_ge _ _ _ hkL]
        have hshort : (bs.take (k1 - (encodeVarint bs.length).length)).length < bs.length := by
          rw [List.length_take]
          omega
        simp only [decodeField, decodeVarint_encodeVarint, h8, h8m, hne, if_false,
          readBytes_short bs.length _ hshort]

/-! ## Field boundaries -/

/-- The byte offsets of field boundaries inside the encoding of `m`: the
lengths of the encodings of each prefix of `m`'s field list (0 and the
total length included). -/
def fieldBoundaries (m : Message) : List Nat :=
  (List.range (m.length + 1)).map fun j => ((m.take j).map fun f => (encodeField f).length).sum

theorem zero_mem_fieldBoundaries (m : Message) : 0 ∈ fieldBoundaries m := by
  refine List.mem_map.mpr ⟨0, ?_, by simp⟩
  simp [List.mem_range]

theorem fieldBoundaries_cons (f : Field) (t : Message) :
    fieldBoundaries (f :: t) =
      0 :: (fieldBoundaries t).map ((encodeField f).length + ·) := by
  unfold fieldBoundaries
  rw [List.length_cons, List.range_succ_eq_map, List.map_cons]
  simp only [List.take_zero, List.map_nil, List.sum_nil, List.map_map]
  congr 1

theorem encodeMsg_length (m : Message) :
    (encodeMsg m).length = ((m.map fun f => (encodeField f).length).sum) := by
  induction m with
  | nil => rfl
  | cons f t ih => simp [encodeMsg, ih]

/-- Truncating the encoding of a wire-valid message anywhere other than
at a field boundary makes the decode fail with end-of-stream. -/
theorem decodeMsg_take_not_boundary :
    ∀ (m : Message), validMsg m → ∀ k, k < (encodeMsg m).length →
      k ∉ fieldBoundaries m →
      decodeMsg ((encodeMsg m).take k) = Except.error "end-of-stream" := by
  intro m
  induction m with
  | nil =>
    intro _ k hk _
    simp [encodeMsg] at hk
  | cons f t ih =>
    intro hm k hk hnb
    have hf : validField f := hm f (by simp)
    have ht : validMsg t := fun g hg => hm g (by simp [hg])
    have hk0 : k ≠ 0 := by
      intro h
      exact hnb (h ▸ zero_mem_fieldBoundaries (f :: t))
    simp only [encodeMsg, List.length_append] at hk
    show decodeMsg ((encodeField f ++ encodeMsg t).take k) = Except.error "end-of-stream"
    by_cases hkT : k < (encodeField f).length
    · rw [take_append_of_le _ _ _ (by omega)]
      have hfield := decodeField_take f hf k hkT
      have hne : (encodeField f).take k ≠ [] := by
        intro hemp
        have := congrArg List.length hemp
        simp only [List.length_take, List.length_nil] at this
        omega
      obtain ⟨b, rest0, hcons⟩ := List.exists_cons_of_ne_nil hne
      rw [hcons, decodeMsg_cons, ← hcons, hfield]
    · push_neg at hkT
      have hkTne : k ≠ (encodeField f).length := by
        intro h
        apply hnb
        rw [fieldBoundaries_cons, h]
        exact List.mem_cons_of_mem _
          (List.mem_map.mpr ⟨0, zero_mem_fieldBoundaries t, by simp⟩)
      have hknb : k - (encodeField f).length ∉ fieldBoundaries t := by
        intro hmem
        apply hnb
        rw [fieldBoundaries_cons]
        refine List.mem_cons_of_mem _ (List.mem_map.mpr ⟨k - (encodeField f).length, hmem, ?_⟩)
        omega
      rw [take_append_of_ge _ _ _ hkT]
      have hne := encodeField_ne_nil f
      obtain ⟨b, tl, hcons0⟩ := List.exists_cons_of_ne_nil hne
      have hcons : encodeField f ++ (encodeMsg t).take (k - (encodeField f).length) =
          b :: (tl ++ (encodeMsg t).take (k - (encodeField f).length)) := by
        rw [hcons0]
        simp
      rw [hcons, decodeMsg_cons, ← hcons,
        decodeField_encodeField f hf ((encodeMsg t).take (k - (encodeField f).length))]
      have hrec := ih ht (k - (encodeField f).length) (by omega) hknb
      show (match decodeMsg ((encodeMsg t).take (k - (encodeField f).length)) with
        | Except.ok m => Except.ok (f :: m)
        | Except.error e => Except.error e) = Except.error "end-of-stream"
      rw [hrec]

/-!
## Claims

One theorem per claim; witnesses instantiate hypothesised theorems at
concrete inputs.  `sampleMsg` is the spec §8 concrete scenario: an
integer field (value 42, field number 1, varint wire type) and a
length-delimited string field ("hi" = bytes 104 105, field number 2).
-/

/-- The spec §8 scenario message `{field1: 42, field2: "hi"}`. -/
def sampleMsg : Message :=
  [(1, FieldValue.varint 42), (2, FieldValue.lengthDelimited [104, 105])]

/-- C1: for every message value `m` that is a valid encoding, `Read` on
a buffer-backed reader over the bytes of `m` leaves `ok() == true` and
the destination deep-equal to `m` (including the dynamically-allocated
length-delimited payloads). -/
theorem read_valid_encoding_roundtrip (m : Message) (hm : validMsg m) :
    ((StringReader.fromBytes (encodeMsg m)).Read).1.ok = true ∧
    ((StringReader.fromBytes (encodeMsg m)).Read).2 = some m := by
  have hdec := decodeMsg_encodeMsg m hm
  constructor <;>
    simp [StringReader.Read, StringReader.fromBytes, hdec, Reader.ok, ReadContext.ok,
      Status.ok, Status.OK]

/-- C1 witness: the spec §8 scenario decodes back to itself with ok. -/
theorem read_valid_encoding_roundtrip_witness :
    validMsg sampleMsg ∧
    (((StringReader.fromBytes (encodeMsg sampleMsg)).Read).1.ok = true ∧
     ((StringReader.fromBytes (encodeMsg sampleMsg)).Read).2 = some sampleMsg) :=
  ⟨by decide, read_valid_encoding_roundtrip sampleMsg (by decide)⟩

/-- C2 counterexample: the claim "every strict prefix of a valid
encoding fails" is false — truncating the 6-byte encoding of the spec §8
scenario at byte 2 (a field boundary) decodes successfully with
`ok() == true`. -/
theorem read_truncated_at_boundary_succeeds :
    validMsg sampleMsg ∧
    2 < (encodeMsg sampleMsg).length ∧
    ((StringReader.fromBytes ((encodeMsg sampleMsg).take 2)).Read).1.ok = true := by
  decide

/-- C2 amended: truncating a valid encoding at any prefix length that is
not a field boundary makes `Read` yield `ok() == false` (the status
becomes the data-loss error with the end-of-stream description, and the
destination is not written); the decode is a total function, so no
out-of-bounds read or panic occurs. -/
theorem read_truncated_off_boundary_fails (m : Message) (k : Nat) (hm : validMsg m)
    (hk : k < (encodeMsg m).length) (hb : k ∉ fieldBoundaries m) :
    ((StringReader.fromBytes ((encodeMsg m).take k)).Read).1.ok = false ∧
    ((StringReader.fromBytes ((encodeMsg m).take k)).Read).1.status =
      ⟨ErrorCode.dataLoss, "end-of-stream"⟩ ∧
    ((StringReader.fromBytes ((encodeMsg m).take k)).Read).2 = none := by
  have hdec := decodeMsg_take_not_boundary m hm k hk hb
  refine ⟨?_, ?_, ?_⟩ <;>
    simp [StringReader.Read, StringReader.fromBytes, hdec, Reader.ok, Reader.status,
      ReadContext.ok, ReadContext.status, ReadContext.Fail, Status.Update,
      Status.ok, Status.OK]

/-- C2 amended witness: the spec §8 scenario truncated to drop the last
byte of the string payload (prefix length 5 of 6, not a boundary) fails
with the data-loss error. -/
theorem read_truncated_off_boundary_fails_witness :
    (validMsg sampleMsg ∧ 5 < (encodeMsg sampleMsg).length ∧
      5 ∉ fieldBoundaries sampleMsg) ∧
    (((StringReader.fromBytes ((encodeMsg sampleMsg).take 5)).Read).1.ok = false ∧
     ((StringReader.fromBytes ((encodeMsg sampleMsg).take 5)).Read).1.status =
       ⟨ErrorCode.dataLoss, "end-of-stream"⟩ ∧
     ((StringReader.fromBytes ((encodeMsg sampleMsg).take 5)).Read).2 = none) :=
  ⟨⟨by decide, by decide, by decide⟩,
    read_truncated_off_boundary_fails sampleMsg 5 (by decide) (by decide) (by decide)⟩

/-- C3 counterexample: the claim "no subsequent operation (including
set_status) can return an error context to ok" is false —
`set_status` is an unconditional replacement (reader.h line 48), so
setting `Status::OK()` on a failed context makes `ok()` true again. -/
theorem set_status_returns_error_context_to_ok :
    ((({} : ReadContext).Fail "boom").ok = false) ∧
    (((({} : ReadContext).Fail "boom").set_status Status.OK).ok = true) := by
  decide

/-- C3 amended: the status is sticky under `Fail` — on a context already
in error, `Fail` leaves the status unchanged (never back to ok) — but
`set_status` replaces the status unconditionally and can return an error
context to ok. -/
theorem fail_is_sticky_set_status_is_not (c : ReadContext) (d : String)
    (h : c.ok = false) :
    (c.Fail d).ok = false ∧ (c.Fail d).status = c.status ∧
    (c.set_status Status.OK).ok = true := by
  refine ⟨?_, ?_, ?_⟩ <;>
    simp_all [ReadContext.Fail, ReadContext.ok, ReadContext.status, ReadContext.set_status,
      Status.Update, Status.ok, Status.OK]

/-- C3 amended witness at a concrete failed context. -/
theorem fail_is_sticky_set_status_is_not_witness :
    ((⟨⟨ErrorCode.dataLoss, "boom"⟩⟩ : ReadContext).ok = false) ∧
    (((⟨⟨ErrorCode.dataLoss, "boom"⟩⟩ : ReadContext).Fail "later").ok = false ∧
     ((⟨⟨ErrorCode.dataLoss, "boom"⟩⟩ : ReadContext).Fail "later").status =
       (⟨⟨ErrorCode.dataLoss, "boom"⟩⟩ : ReadContext).status ∧
     ((⟨⟨ErrorCode.dataLoss, "boom"⟩⟩ : ReadContext).set_status Status.OK).ok = true) :=
  ⟨by decide, fail_is_sticky_set_status_is_not ⟨⟨ErrorCode.dataLoss, "boom"⟩⟩ "later" (by decide)⟩

/-- C4: first failure wins — `Fail "A"` then `Fail "B"` on an
initially-ok context leaves an error whose message is exactly "A"; the
second call changes nothing and never discards the original failure. -/
theorem first_failure_wins (c : ReadContext) (a b : String) (h : c.ok = true) :
    ((c.Fail a).Fail b).ok = false ∧
    ((c.Fail a).Fail b).status.message = a ∧
    ((c.Fail a).Fail b).status = (c.Fail a).status := by
  refine ⟨?_, ?_, ?_⟩ <;>
    simp_all [ReadContext.Fail, ReadContext.ok, ReadContext.status, Status.Update,
      Status.ok, Status.OK]

/-- C4 witness with descriptions "A" and "B" on a fresh context. -/
theorem first_failure_wins_witness :
    (({} : ReadContext).ok = true) ∧
    (((({} : ReadContext).Fail "A").Fail "B").ok = false ∧
     ((({} : ReadContext).Fail "A").Fail "B").status.message = "A" ∧
     ((({} : ReadContext).Fail "A").Fail "B").status = (({} : ReadContext).Fail "A").status) :=
  ⟨by decide, first_failure_wins {} "A" "B" (by decide)⟩

/-- C5: the chunked-transport reader over any N ≥ 1 segments produces
exactly the same resulting context (status) and destination as the
buffer-backed reader over the concatenation of the segments. -/
theorem byte_buffer_reader_refines_string_reader (segs : List (List Nat))
    (hn : 1 ≤ segs.length) :
    ((ByteBufferReader.fromSegments segs).Read).1.context_ =
      ((StringReader.fromBytes segs.flatten).Read).1.context_ ∧
    ((ByteBufferReader.fromSegments segs).Read).2 =
      ((StringReader.fromBytes segs.flatten).Read).2 := by
  cases h : decodeMsg segs.flatten <;>
    simp [ByteBufferReader.Read, StringReader.Read, ByteBufferReader.fromSegments,
      StringReader.fromBytes, h, ReadContext.ok, Status.ok, Status.OK]

/-- C5 witness: the spec §8 scenario bytes split into two segments. -/
theorem byte_buffer_reader_refines_string_reader_witness :
    1 ≤ ([[8, 42], [18, 2, 104, 105]] : List (List Nat)).length ∧
    (((ByteBufferReader.fromSegments [[8, 42], [18, 2, 104, 105]]).Read).1.context_ =
       ((StringReader.fromBytes ([[8, 42], [18, 2, 104, 105]] : List (List Nat)).flatten).Read).1.context_ ∧
     ((ByteBufferReader.fromSegments [[8, 42], [18, 2, 104, 105]]).Read).2 =
       ((StringReader.fromBytes ([[8, 42], [18, 2, 104, 105]] : List (List Nat)).flatten).Read).2) :=
  ⟨by decide, byte_buffer_reader_refines_string_reader [[8, 42], [18, 2, 104, 105]] (by decide)⟩

/-- C6: on an ok context, `Fail description` sets exactly the designated
`DataLoss` error kind carrying that description, after which `ok()` is
false. -/
theorem fail_sets_data_loss (c : ReadContext) (d : String) (h : c.ok = true) :
    (c.Fail d).status = ⟨ErrorCode.dataLoss, d⟩ ∧ (c.Fail d).ok = false := by
  constructor <;>
    simp_all [ReadContext.Fail, ReadContext.ok, ReadContext.status, Status.Update,
      Status.ok, Status.OK]

/-- C6 witness on a fresh context. -/
theorem fail_sets_data_loss_witness :
    (({} : ReadContext).ok = true) ∧
    ((({} : ReadContext).Fail "oops").status = ⟨ErrorCode.dataLoss, "oops"⟩ ∧
     (({} : ReadContext).Fail "oops").ok = false) :=
  ⟨by decide, fail_sets_data_loss {} "oops" (by decide)⟩

/-- C7: a `Read` on a reader already in an error state is a no-op for
both concrete readers — the reader is returned unchanged (same error,
`ok()` still false, stream position untouched) and the destination is
not written. -/
theorem read_is_noop_on_failed_reader (r : StringReader) (b : ByteBufferReader)
    (hr : r.ok = false) (hb : b.ok = false) :
    r.Read = (r, none) ∧ b.Read = (b, none) := by
  constructor
  · simp [StringReader.Read, Reader.ok, ReadContext.ok] at hr ⊢
    simp [hr]
  · simp [ByteBufferReader.Read, Reader.ok, ReadContext.ok] at hb ⊢
    simp [hb]

/-- C7 witness: failed readers with pending bytes are left untouched. -/
theorem read_is_noop_on_failed_reader_witness :
    ((⟨⟨⟨⟨ErrorCode.dataLoss, "bad"⟩⟩⟩, [8, 42]⟩ : StringReader).ok = false) ∧
    ((⟨⟨⟨⟨ErrorCode.dataLoss, "bad"⟩⟩⟩, [8, 42], [8, 42]⟩ : ByteBufferReader).ok = false) ∧
    ((⟨⟨⟨⟨ErrorCode.dataLoss, "bad"⟩⟩⟩, [8, 42]⟩ : StringReader).Read =
       (⟨⟨⟨⟨ErrorCode.dataLoss, "bad"⟩⟩⟩, [8, 42]⟩, none) ∧
     (⟨⟨⟨⟨ErrorCode.dataLoss, "bad"⟩⟩⟩, [8, 42], [8, 42]⟩ : ByteBufferReader).Read =
       (⟨⟨⟨⟨ErrorCode.dataLoss, "bad"⟩⟩⟩, [8, 42], [8, 42]⟩, none)) :=
  ⟨by decide, by decide,
    read_is_noop_on_failed_reader ⟨⟨⟨⟨ErrorCode.dataLoss, "bad"⟩⟩⟩, [8, 42]⟩
      ⟨⟨⟨⟨ErrorCode.dataLoss, "bad"⟩⟩⟩, [8, 42], [8, 42]⟩ (by decide) (by decide)⟩

/-- C8: every status operation of `Reader` observes or mutates exactly
the embedded `ReadContext`, equal as a function of the context state to
the corresponding `ReadContext` operation. -/
theorem reader_delegates_to_context (r : Reader) (s : Status) (d : String) :
    r.ok = r.context_.ok ∧
    r.status = r.context_.status ∧
    r.context = r.context_ ∧
    (r.set_status s).context_ = r.context_.set_status s ∧
    (r.Fail d).context_ = r.context_.Fail d :=
  ⟨rfl, rfl, rfl, rfl, rfl⟩

/-- C9: releasing a destination record twice equals releasing it once —
freed dynamic fields are left in the "nothing to free" state, so the
second walk frees nothing (no double-free), and the walk is a total
function (no crash). -/
theorem free_nanopb_message_idempotent (dest : List (Nat × PbSlot)) :
    FreeNanopbMessage (FreeNanopbMessage dest) = FreeNanopbMessage dest := by
  unfold FreeNanopbMessage
  rw [List.map_map]
  apply List.map_congr_left
  intro fs _
  cases h : fs.2 <;> simp [releaseSlot, h]

/-- C10: the boolean and status views never disagree — for every
context state and every reader state, `ok()` is exactly `status().ok()`,
and freshly constructed contexts and readers start ok. -/
theorem ok_agrees_with_status (c : ReadContext) (r : Reader) :
    c.ok = c.status.ok ∧
    r.ok = r.status.ok ∧
    (({} : ReadContext)).ok = true ∧
    (({} : Reader)).ok = true :=
  ⟨rfl, rfl, rfl, rfl⟩

end Nanopb
